import Mathlib

/-!
Verification of `fix_whitespace.py` against its specification.

The script is embedded shallowly: Python strings become `List Char`,
`str.strip`/`str.rstrip` become explicit recursive functions over the same
whitespace set, and the text-mode file I/O of CPython is modelled explicitly.
Two facts about CPython's I/O layer matter and are part of the embedding:

* `open(path, 'r', encoding='utf-8')` enables universal-newlines mode
  (`newline=None`), so every `\r\n` and every lone `\r` in the file is
  translated to `\n` before `readlines` splits the text.  This is modelled by
  `univTranslate`.
* `open(path, 'w', encoding='utf-8')` translates `\n` back to `os.linesep` on
  write.  The embedding models a POSIX host, where `os.linesep = "\n"` and the
  write-side translation is the identity.
* `print(...)` without a `file=` argument writes to `sys.stdout`.

Fallible I/O is modelled by threading the outcome of the two `open` calls
(`FileState.readErr`, `FileState.writeErr`) into the function; `except` blocks
become `match` on those outcomes.
-/

namespace FixWhitespace

/-- Python strings are modelled as lists of characters. -/
abbrev Str := List Char

/-- Convert a Lean string literal to the model type. -/
def pyStr (s : String) : Str := s.toList

/-- Characters for which Python's `str.isspace()` holds; this is the character
set removed by `str.strip()` / `str.rstrip()` with no argument. -/
def pyIsSpace (c : Char) : Bool :=
  c = ' ' || c = '\t' || c = '\n' || c = '\r' || c = '\x0b' || c = '\x0c' ||
  c = '\x1c' || c = '\x1d' || c = '\x1e' || c = '\x1f' || c = '\u0085' ||
  c = '\u00a0' || c = '\u1680' || ('\u2000' ≤ c && c ≤ '\u200a') ||
  c = '\u2028' || c = '\u2029' || c = '\u202f' || c = '\u205f' || c = '\u3000'

/-- Remove the longest suffix of characters satisfying `p` (the shared core of
Python's `str.rstrip` with and without an explicit character set). -/
def rstripP (p : Char → Bool) : Str → Str
  | [] => []
  | c :: rest =>
    let r := rstripP p rest
    if r = [] ∧ p c then [] else c :: r

/-- Python `s.rstrip()` (no argument): strip trailing whitespace. -/
def rstrip (s : Str) : Str := rstripP pyIsSpace s

/-- Python `s.rstrip(cs)`: strip trailing characters belonging to `cs`. -/
def rstripChars (cs : List Char) (s : Str) : Str :=
  rstripP (fun c => cs.contains c) s

/-- Python `s.strip()`: strip leading and trailing whitespace. -/
def strip (s : Str) : Str := rstripP pyIsSpace (s.dropWhile pyIsSpace)

/-- Universal-newlines translation performed by CPython's text layer on read
(`newline=None`): `\r\n` and lone `\r` both become `\n`. -/
def univTranslate : Str → Str
  | [] => []
  | [c] => if c = '\r' then ['\n'] else [c]
  | c :: d :: rest =>
    if c = '\r' then
      if d = '\n' then '\n' :: univTranslate rest
      else '\n' :: univTranslate (d :: rest)
    else c :: univTranslate (d :: rest)

/-- Prepend a character to the first line of a line list (the first line is
created if there is none): the cons step of `splitLines`. -/
def splitLinesCons (c : Char) : List Str → List Str
  | [] => [[c]]
  | l :: ls => (c :: l) :: ls

/-- Split a (already newline-translated) text into lines, keeping the `\n`
terminators, exactly as `file.readlines()` does. -/
def splitLines : Str → List Str
  | [] => []
  | c :: rest =>
    if c = '\n' then ['\n'] :: splitLines rest
    else splitLinesCons c (splitLines rest)

/-- Model of `f.readlines()` on a file opened with
`open(path, 'r', encoding='utf-8')`: universal-newlines translation followed
by splitting after each `\n`. -/
def readlines (content : Str) : List Str := splitLines (univTranslate content)

/-- The body of the `for i, line in enumerate(lines)` loop of
`fix_whitespace_in_file` (src/fix_whitespace.py lines 26-41), applied to one
line.  Returns the replacement line together with the increments of the
`w293_count` and `w291_count` counters.  Python's `line.endswith('\n')` is
rendered as `line.getLast? = some '\n'`, and `line.endswith('\r\n')` as the
last two characters being `'\r'`, `'\n'`. -/
def fixLine (line : Str) : Str × Nat × Nat :=
  if strip line = [] ∧ 1 < line.length then
    ((if line.getLast? = some '\n' then ['\n'] else []), 1, 0)
  else if rstrip line ≠ rstripChars ['\r', '\n'] (rstripChars ['\n'] line) then
    ((if line.getLast? = some '\n' ∧ line.dropLast.getLast? = some '\r' then
        rstrip line ++ ['\r', '\n']
      else if line.getLast? = some '\n' then rstrip line ++ ['\n']
      else rstrip line), 0, 1)
  else (line, 0, 0)

/-- The whole loop: the rewritten list of lines plus the two counters. -/
def fixLines : List Str → List Str × Nat × Nat
  | [] => ([], 0, 0)
  | l :: rest =>
    let r := fixLine l
    let rr := fixLines rest
    (r.1 :: rr.1, r.2.1 + rr.2.1, r.2.2 + rr.2.2)

/-- Output channel of a `print` call.  CPython's `print` without a `file=`
argument writes to `sys.stdout`; `Chan.stderr` exists so that statements about
which stream a diagnostic uses are expressible. -/
inductive Chan
  | stdout
  | stderr
  deriving DecidableEq, Repr

/-- The outcome of the two `open` calls made for one file: `readErr` is `some
e` when `open(filepath, 'r', ...)` raises an exception rendering as `e`, and
`writeErr` likewise for `open(filepath, 'w', ...)`. -/
structure FileState where
  content : Str
  readErr : Option String
  writeErr : Option String
  deriving DecidableEq, Repr

/-- Observable result of `fix_whitespace_in_file` on one file: the returned
counter pair, everything printed (with its channel), whether the file was
rewritten, and the on-disk content afterwards. -/
structure FileOutcome where
  w293 : Nat
  w291 : Nat
  printed : List (Chan × String)
  wrote : Bool
  newContent : Str
  deriving DecidableEq, Repr

/-- Model of `fix_whitespace_in_file` (src/fix_whitespace.py lines 13-52).
A failing `open` for read prints `Error reading {filepath}: {e}` (to stdout,
since `print` has no `file=` argument) and returns `(0, 0)`; otherwise the
lines are fixed, and the file is rewritten only when the fixed lines differ
from the original ones, a failing `open` for write printing
`Error writing {filepath}: {e}` and returning `(0, 0)`. -/
def fix_whitespace_in_file (filepath : String) (st : FileState) : FileOutcome :=
  match st.readErr with
  | some e =>
    { w293 := 0, w291 := 0
      printed := [(Chan.stdout, "Error reading " ++ filepath ++ ": " ++ e)]
      wrote := false, newContent := st.content }
  | none =>
    let lines := readlines st.content
    let res := fixLines lines
    if res.1 = lines then
      { w293 := res.2.1, w291 := res.2.2, printed := [], wrote := false
        newContent := st.content }
    else
      match st.writeErr with
      | some e =>
        { w293 := 0, w291 := 0
          printed := [(Chan.stdout, "Error writing " ++ filepath ++ ": " ++ e)]
          wrote := false, newContent := st.content }
      | none =>
        { w293 := res.2.1, w291 := res.2.2, printed := [], wrote := true
          newContent := res.1.flatten }

/-- Shape of any `rstripP` result: empty, or ending in a character the
predicate rejects. -/
def RStripped (r : Str) : Prop :=
  r = [] ∨ ∃ u c, r = u ++ [c] ∧ pyIsSpace c = false

/-- The terminators a line can carry after universal-newlines translation is
taken into account, plus the `\r\n` case that the source code also tests. -/
def IsTerm (t : Str) : Prop := t = [] ∨ t = ['\n'] ∨ t = ['\r', '\n']

/-- A properly terminated line: some body free of `\n`, followed by `\n`. -/
def NLLine (l : Str) : Prop := ∃ b, l = b ++ ['\n'] ∧ '\n' ∉ b

/-- Well-formedness of a list of line chunks as produced by `readlines`:
every chunk except possibly the last is `\n`-terminated with no interior
`\n`, and the last has no `\n` before its final position. -/
def ChunksOK : List Str → Prop
  | [] => True
  | [l] => '\n' ∉ l.dropLast
  | l :: l2 :: rest => NLLine l ∧ ChunksOK (l2 :: rest)

/-- A filesystem subtree as enumerated by `os.walk`: each directory holds an
ordered listing of files and subdirectories. -/
inductive FSTree where
  | file (name : String)
  | dir (name : String) (entries : List FSTree)

/-- Python `os.path.join(root, name)` for the relative paths this script
builds (neither part is absolute or slash-terminated). -/
def pathJoin (a b : String) : String := a ++ "/" ++ b

/-- Python `d.startswith('.')`: the first character is the hidden-file
marker.  Stated over the character list so that it evaluates by `decide`. -/
def startsWithDot (d : String) : Bool := decide (d.toList.head? = some '.')

/-- Python `file.endswith('.py')`: the last three characters are `.py`.
Stated over the character list so that it evaluates by `decide`. -/
def endsWithPy (n : String) : Bool :=
  decide (n.toList.reverse.take 3 = ['y', 'p', '.'])

/-- The in-place pruning filter of src/fix_whitespace.py line 60:
`not d.startswith('.') and d not in ['__pycache__', 'venv', 'env', 'build', 'dist']`. -/
def keepDir (d : String) : Bool :=
  !(startsWithDot d) &&
    !(decide (d ∈ ["__pycache__", "venv", "env", "build", "dist"]))

/-- The per-entry body of the file loop (lines 62-64): a file whose name ends
in `.py` contributes `os.path.join(root, file)`. -/
def pyEntry (path : String) : FSTree → Option String
  | FSTree.file n => if endsWithPy n then some (pathJoin path n) else none
  | FSTree.dir _ _ => none

mutual
/-- One step of `os.walk` at directory `path` with listing `entries`: the
matching files of this directory, then the recursive walk of the kept
subdirectories, in listing order. -/
def walkDir (path : String) (entries : List FSTree) : List String :=
  entries.filterMap (pyEntry path) ++ walkSub path entries
termination_by sizeOf entries + 1

/-- The descent of `os.walk` into subdirectories, skipping the pruned ones
(hidden names and the fixed denylist). -/
def walkSub (path : String) : List FSTree → List String
  | [] => []
  | FSTree.file _ :: ts => walkSub path ts
  | FSTree.dir d des :: ts =>
    (if keepDir d then walkDir (pathJoin path d) des else []) ++ walkSub path ts
termination_by l => sizeOf l
end

/-- Model of `find_python_files(root_dir)` (lines 55-66), for a root whose
listing is `entries`.  The root's own listing is walked unconditionally; the
pruning filter is applied only to subdirectory names encountered during the
walk. -/
def find_python_files (root : String) (entries : List FSTree) : List String :=
  walkDir root entries

/-- Specification-side description of the discoverer's contract (spec 4.1):
a path is returned when it names a `.py` file reachable from the root
through subdirectories that are all kept by the pruning filter. -/
inductive PyVisible : String → List FSTree → String → Prop
  | here (path : String) (entries : List FSTree) (n : String) :
      FSTree.file n ∈ entries → endsWithPy n = true →
      PyVisible path entries (pathJoin path n)
  | there (path : String) (entries : List FSTree) (d : String)
      (des : List FSTree) (p : String) :
      FSTree.dir d des ∈ entries → keepDir d = true →
      PyVisible (pathJoin path d) des p → PyVisible path entries p

/-- Lexicographic comparison of character lists by code point: the order
CPython's `<=` and `sorted` use on `str` values. -/
def charListLe : List Char → List Char → Bool
  | [], _ => true
  | _ :: _, [] => false
  | c :: cs, d :: ds => if c = d then charListLe cs ds else decide (c < d)

/-- Python string comparison `a <= b`. -/
def pyStrLe (a b : String) : Bool := charListLe a.toList b.toList

/-- Sorting key used by the driver: compare entries by their path. -/
def pathLe (a b : String × FileState) : Prop := pyStrLe a.1 b.1 = true

instance : DecidableRel pathLe := fun a b => by
  unfold pathLe
  infer_instance

/-- Model of `sorted(python_files)` in `main` (line 81), acting on the
path-to-file-state association: sort by path under Python's string order.
Modelled with insertion sort, which agrees with CPython's sort whenever the
paths are distinct (the situation of a real directory walk). -/
def sortByPath (files : List (String × FileState)) : List (String × FileState) :=
  List.insertionSort pathLe files

/-- The per-file report line `{filepath}: Fixed W293={a}, W291={b}`. -/
def fixedLineFor (filepath : String) (a b : Nat) : String :=
  filepath ++ ": Fixed W293=" ++ toString a ++ ", W291=" ++ toString b

/-- Everything `main`'s loop body prints for one file, in order: first
whatever `fix_whitespace_in_file` itself printed, then, when
`w293 > 0 or w291 > 0`, the per-file report line (lines 81-88). -/
def perFileStdout (f : String × FileState) : List String :=
  (fix_whitespace_in_file f.1 f.2).printed.map Prod.snd ++
    (if 0 < (fix_whitespace_in_file f.1 f.2).w293 ∨
        0 < (fix_whitespace_in_file f.1 f.2).w291 then
      [fixedLineFor f.1 (fix_whitespace_in_file f.1 f.2).w293
        (fix_whitespace_in_file f.1 f.2).w291]
    else [])

/-- The accumulators of `main`'s loop: `total_w293`, `total_w291`,
`files_fixed`; all three are updated only under `w293 > 0 or w291 > 0`. -/
def runTotals : List (String × FileState) → Nat × Nat × Nat
  | [] => (0, 0, 0)
  | f :: rest =>
    if 0 < (fix_whitespace_in_file f.1 f.2).w293 ∨
        0 < (fix_whitespace_in_file f.1 f.2).w291 then
      ((fix_whitespace_in_file f.1 f.2).w293 + (runTotals rest).1,
        (fix_whitespace_in_file f.1 f.2).w291 + (runTotals rest).2.1,
        1 + (runTotals rest).2.2)
    else runTotals rest

/-- Model of `main` (lines 69-95): the full standard-output line stream of a
run over the given path-to-file-state association. -/
def runMain (files : List (String × FileState)) : List String :=
  ["Found " ++ toString files.length ++ " Python files",
    "Fixing whitespace issues...", ""] ++
  (sortByPath files).flatMap perFileStdout ++
  ["", "Summary:",
    "Files processed: " ++ toString files.length,
    "Files fixed: " ++ toString (runTotals (sortByPath files)).2.2,
    "Total W293 (blank line whitespace) fixed: " ++
      toString (runTotals (sortByPath files)).1,
    "Total W291 (trailing whitespace) fixed: " ++
      toString (runTotals (sortByPath files)).2.1,
    "Total whitespace issues fixed: " ++
      toString ((runTotals (sortByPath files)).1 +
        (runTotals (sortByPath files)).2.1)]

theorem rstripP_eq_nil_iff (p : Char → Bool) (s : Str) :
    rstripP p s = [] ↔ ∀ c ∈ s, p c = true := by
  induction s with
  | nil => simp [rstripP]
  | cons c rest ih =>
    constructor
    · intro h
      simp only [rstripP] at h
      split at h
      case isTrue hc =>
        intro x hx
        rcases List.mem_cons.mp hx with rfl | hx
        · exact hc.2
        · exact ih.mp hc.1 x hx
      case isFalse hc => simp at h
    · intro h
      simp only [rstripP]
      rw [if_pos ⟨ih.mpr fun x hx => h x (List.mem_cons_of_mem c hx),
        h c (List.mem_cons_self c rest)⟩]

theorem rstripP_append_all (p : Char → Bool) (t : Str)
    (ht : ∀ c ∈ t, p c = true) : ∀ s, rstripP p (s ++ t) = rstripP p s := by
  intro s
  induction s with
  | nil =>
    rw [List.nil_append, (rstripP_eq_nil_iff p t).mpr ht]
    rfl
  | cons c rest ih => simp only [List.cons_append, rstripP, List.append_eq, ih]

theorem rstripP_concat_of_neg (p : Char → Bool) (c : Char) (hc : p c = false) :
    ∀ s, rstripP p (s ++ [c]) = s ++ [c] := by
  intro s
  induction s with
  | nil => simp [rstripP, hc]
  | cons d rest ih =>
    simp only [List.cons_append, rstripP, List.append_eq, ih]
    rw [if_neg (by simp)]

theorem rstripP_decomp (p : Char → Bool) (s : Str) :
    ∃ t, s = rstripP p s ++ t ∧ ∀ c ∈ t, p c = true := by
  induction s with
  | nil => exact ⟨[], rfl, by simp⟩
  | cons c rest ih =>
    rcases ih with ⟨t, ht1, ht2⟩
    simp only [rstripP]
    split
    case isTrue h =>
      refine ⟨c :: rest, by simp, fun x hx => ?_⟩
      rcases List.mem_cons.mp hx with rfl | hx
      · exact h.2
      · exact (rstripP_eq_nil_iff p rest).mp h.1 x hx
    case isFalse h =>
      exact ⟨t, by rw [List.cons_append]; exact congrArg (c :: ·) ht1, ht2⟩

theorem rstripP_last (p : Char → Bool) (s : Str) (h : rstripP p s ≠ []) :
    ∃ u c, rstripP p s = u ++ [c] ∧ p c = false := by
  induction s with
  | nil => simp [rstripP] at h
  | cons c rest ih =>
    by_cases hc : rstripP p rest = [] ∧ p c = true
    · simp only [rstripP, if_pos hc] at h
      exact absurd rfl h
    · simp only [rstripP, if_neg hc] at h ⊢
      by_cases hr : rstripP p rest = []
      · have hpc : p c = false := by
          cases hpc : p c
          · rfl
          · exact absurd ⟨hr, hpc⟩ hc
        exact ⟨[], c, by simp [hr], hpc⟩
      · rcases ih hr with ⟨u, x, h1, h2⟩
        exact ⟨c :: u, x, by rw [h1, List.cons_append], h2⟩

theorem rstrip_shape (s : Str) : RStripped (rstrip s) := by
  by_cases h : rstrip s = []
  · exact Or.inl h
  · exact Or.inr (rstripP_last pyIsSpace s h)

theorem strip_eq_nil_iff (s : Str) :
    strip s = [] ↔ ∀ c ∈ s, pyIsSpace c = true := by
  unfold strip
  rw [rstripP_eq_nil_iff]
  constructor
  · intro h c hc
    rw [← List.takeWhile_append_dropWhile (p := pyIsSpace) (l := s)] at hc
    rcases List.mem_append.mp hc with h1 | h2
    · exact List.mem_takeWhile_imp h1
    · exact h c h2
  · intro h c hc
    exact h c ((List.dropWhile_sublist pyIsSpace).subset hc)

theorem not_ws_ne (c : Char) (h : pyIsSpace c = false) : c ≠ '\n' ∧ c ≠ '\r' := by
  constructor <;> rintro rfl <;> exact absurd h (by decide)

theorem rstrip_of_rstripped (r : Str) (h : RStripped r) :
    rstripP pyIsSpace r = r ∧
      rstripP (fun c => List.contains ['\n'] c) r = r ∧
      rstripP (fun c => List.contains ['\r', '\n'] c) r = r := by
  rcases h with rfl | ⟨u, c, rfl, hc⟩
  · exact ⟨rfl, rfl, rfl⟩
  · obtain ⟨h1, h2⟩ := not_ws_ne c hc
    refine ⟨rstripP_concat_of_neg _ _ hc u, ?_, ?_⟩
    · exact rstripP_concat_of_neg _ _ (by simp [h1]) u
    · exact rstripP_concat_of_neg _ _ (by simp [h1, h2]) u

theorem noFix_eq (r : Str) (hr : RStripped r) (term : Str) (ht : IsTerm term) :
    rstrip (r ++ term) = r ∧
      rstripChars ['\r', '\n'] (rstripChars ['\n'] (r ++ term)) = r := by
  obtain ⟨e1, e2, e3⟩ := rstrip_of_rstripped r hr
  simp only [rstrip, rstripChars]
  rcases ht with rfl | rfl | rfl
  · rw [List.append_nil]
    exact ⟨e1, by rw [e2, e3]⟩
  · refine ⟨?_, ?_⟩
    · rw [rstripP_append_all pyIsSpace ['\n'] (by decide) r, e1]
    · rw [rstripP_append_all (fun c => List.contains ['\n'] c) ['\n']
        (by decide) r, e2, e3]
  · refine ⟨?_, ?_⟩
    · rw [rstripP_append_all pyIsSpace ['\r', '\n'] (by decide) r, e1]
    · rw [show r ++ ['\r', '\n'] = (r ++ ['\r']) ++ ['\n'] by simp]
      rw [rstripP_append_all (fun c => List.contains ['\n'] c) ['\n']
        (by decide) (r ++ ['\r'])]
      rw [rstripP_concat_of_neg (fun c => List.contains ['\n'] c) '\r'
        (by decide) r]
      rw [rstripP_append_all (fun c => List.contains ['\r', '\n'] c) ['\r']
        (by decide) r]
      exact e3

theorem fixLine_eq_w293 (l : Str) (h1 : strip l = [] ∧ 1 < l.length) :
    fixLine l = ((if l.getLast? = some '\n' then ['\n'] else []), 1, 0) := by
  rw [fixLine, if_pos h1]

theorem fixLine_eq_w291 (l : Str) (h1 : ¬(strip l = [] ∧ 1 < l.length))
    (h2 : rstrip l ≠ rstripChars ['\r', '\n'] (rstripChars ['\n'] l)) :
    fixLine l =
      ((if l.getLast? = some '\n' ∧ l.dropLast.getLast? = some '\r' then
          rstrip l ++ ['\r', '\n']
        else if l.getLast? = some '\n' then rstrip l ++ ['\n']
        else rstrip l), 0, 1) := by
  rw [fixLine, if_neg h1, if_pos h2]

theorem fixLine_eq_none (l : Str) (h1 : ¬(strip l = [] ∧ 1 < l.length))
    (h2 : ¬(rstrip l ≠ rstripChars ['\r', '\n'] (rstripChars ['\n'] l))) :
    fixLine l = (l, 0, 0) := by
  rw [fixLine, if_neg h1, if_neg h2]

theorem strip_nil_of_rstrip_nil (l : Str) (h : rstrip l = []) : strip l = [] :=
  (strip_eq_nil_iff l).mpr ((rstripP_eq_nil_iff pyIsSpace l).mp h)

theorem eq_nl_of_ends_nl_len_le (l : Str) (h : l.getLast? = some '\n')
    (hl : l.length ≤ 1) : l = ['\n'] := by
  obtain ⟨ys, rfl⟩ := List.getLast?_eq_some_iff.mp h
  cases ys with
  | nil => rfl
  | cons a t => simp [List.length_append] at hl

theorem one_lt_len_of_dropLast_ends (l : Str) (c : Char)
    (h : l.dropLast.getLast? = some c) : 1 < l.length := by
  obtain ⟨ys, hys⟩ := List.getLast?_eq_some_iff.mp h
  have h1 : l.dropLast.length = l.length - 1 := List.length_dropLast l
  rw [hys] at h1
  simp [List.length_append] at h1
  omega

/-- Any string of the form `content-ending-in-a-non-whitespace-character`
followed by one of the three terminator styles is left alone by the loop
body: neither rule fires. -/
theorem fixLine_of_shaped (u : Str) (c : Char) (hc : pyIsSpace c = false)
    (term : Str) (ht : IsTerm term) :
    fixLine ((u ++ [c]) ++ term) = ((u ++ [c]) ++ term, 0, 0) := by
  obtain ⟨n1, n2⟩ := noFix_eq (u ++ [c]) (Or.inr ⟨u, c, rfl, hc⟩) term ht
  have c1 : ¬(strip ((u ++ [c]) ++ term) = [] ∧ 1 < ((u ++ [c]) ++ term).length) := by
    rintro ⟨hs, -⟩
    have hmem : c ∈ (u ++ [c]) ++ term := by simp
    have := (strip_eq_nil_iff _).mp hs c hmem
    rw [hc] at this
    exact Bool.false_ne_true this
  have c2 : ¬(rstrip ((u ++ [c]) ++ term) ≠
      rstripChars ['\r', '\n'] (rstripChars ['\n'] ((u ++ [c]) ++ term))) :=
    fun h => h (n1.trans n2.symm)
  rw [fixLine, if_neg c1, if_neg c2]

/-- The loop body is idempotent: its output is always a fixed point on which
neither rule fires again. -/
theorem fixLine_idem (l : Str) : fixLine (fixLine l).1 = ((fixLine l).1, 0, 0) := by
  by_cases h1 : strip l = [] ∧ 1 < l.length
  · rw [fixLine_eq_w293 l h1]
    by_cases h2 : l.getLast? = some '\n'
    · rw [if_pos h2]; decide
    · rw [if_neg h2]; decide
  · by_cases h2 : rstrip l ≠ rstripChars ['\r', '\n'] (rstripChars ['\n'] l)
    · rw [fixLine_eq_w291 l h1 h2]
      rcases rstrip_shape l with hr0 | ⟨u, c, hru, hc⟩
      · by_cases h3 : l.getLast? = some '\n' ∧ l.dropLast.getLast? = some '\r'
        · exact absurd ⟨strip_nil_of_rstrip_nil l hr0,
            one_lt_len_of_dropLast_ends l '\r' h3.2⟩ h1
        · by_cases h4 : l.getLast? = some '\n'
          · exfalso
            have hlen : ¬ 1 < l.length :=
              fun hl => h1 ⟨strip_nil_of_rstrip_nil l hr0, hl⟩
            have hnl : l = ['\n'] :=
              eq_nl_of_ends_nl_len_le l h4 (by omega)
            rw [hnl] at h2
            exact h2 (by decide)
          · rw [if_neg h3, if_neg h4, hr0]; decide
      · by_cases h3 : l.getLast? = some '\n' ∧ l.dropLast.getLast? = some '\r'
        · rw [if_pos h3, hru]
          exact fixLine_of_shaped u c hc ['\r', '\n'] (Or.inr (Or.inr rfl))
        · by_cases h4 : l.getLast? = some '\n'
          · rw [if_neg h3, if_pos h4, hru]
            exact fixLine_of_shaped u c hc ['\n'] (Or.inr (Or.inl rfl))
          · rw [if_neg h3, if_neg h4, hru]
            have := fixLine_of_shaped u c hc [] (Or.inl rfl)
            rwa [List.append_nil] at this
    · have he := fixLine_eq_none l h1 h2
      rw [he]
      exact he

/-- A line is returned unchanged by the loop body exactly when neither
counter was incremented for it. -/
theorem fixLine_unchanged_iff (l : Str) :
    (fixLine l).1 = l ↔ ((fixLine l).2.1 = 0 ∧ (fixLine l).2.2 = 0) := by
  by_cases h1 : strip l = [] ∧ 1 < l.length
  · rw [fixLine_eq_w293 l h1]
    constructor
    · intro ho
      exfalso
      have hlen : l.length ≤ 1 := by
        rw [← ho]
        split <;> simp
      omega
    · rintro ⟨h, -⟩
      exact absurd h one_ne_zero
  · by_cases h2 : rstrip l ≠ rstripChars ['\r', '\n'] (rstripChars ['\n'] l)
    · rw [fixLine_eq_w291 l h1 h2]
      constructor
      · intro ho
        exfalso
        apply h2
        by_cases h3 : l.getLast? = some '\n' ∧ l.dropLast.getLast? = some '\r'
        · rw [if_pos h3] at ho
          obtain ⟨n1, n2⟩ :=
            noFix_eq (rstrip l) (rstrip_shape l) ['\r', '\n'] (Or.inr (Or.inr rfl))
          rw [← ho]
          rw [n1, n2]
        · by_cases h4 : l.getLast? = some '\n'
          · rw [if_neg h3, if_pos h4] at ho
            obtain ⟨n1, n2⟩ :=
              noFix_eq (rstrip l) (rstrip_shape l) ['\n'] (Or.inr (Or.inl rfl))
            rw [← ho]
            rw [n1, n2]
          · rw [if_neg h3, if_neg h4] at ho
            obtain ⟨n1, n2⟩ :=
              noFix_eq (rstrip l) (rstrip_shape l) [] (Or.inl rfl)
            rw [List.append_nil] at n1 n2
            rw [← ho]
            rw [n1, n2]
      · rintro ⟨-, h⟩
        exact absurd h one_ne_zero
    · rw [fixLine_eq_none l h1 h2]
      exact ⟨fun _ => ⟨rfl, rfl⟩, fun _ => rfl⟩

theorem fixLines_fst (L : List Str) :
    (fixLines L).1 = L.map (fun l => (fixLine l).1) := by
  induction L with
  | nil => rfl
  | cons l rest ih =>
    simp only [fixLines, List.map_cons]
    rw [ih]

theorem fixLines_of_fixpoints (L : List Str) (h : ∀ l ∈ L, fixLine l = (l, 0, 0)) :
    fixLines L = (L, 0, 0) := by
  induction L with
  | nil => rfl
  | cons l rest ih =>
    simp only [fixLines]
    rw [h l (List.mem_cons_self l rest),
      ih (fun x hx => h x (List.mem_cons_of_mem l hx))]
    rfl

theorem fixLines_unchanged_iff (L : List Str) :
    (fixLines L).1 = L ↔ ((fixLines L).2.1 = 0 ∧ (fixLines L).2.2 = 0) := by
  induction L with
  | nil => simp [fixLines]
  | cons l rest ih =>
    simp only [fixLines]
    constructor
    · intro h
      rw [List.cons.injEq] at h
      have p1 := (fixLine_unchanged_iff l).mp h.1
      have p2 := ih.mp h.2
      exact ⟨by omega, by omega⟩
    · intro h
      have e1 : (fixLine l).2.1 = 0 ∧ (fixLine l).2.2 = 0 := by
        constructor <;> omega
      have e2 : (fixLines rest).2.1 = 0 ∧ (fixLines rest).2.2 = 0 := by
        constructor <;> omega
      rw [(fixLine_unchanged_iff l).mpr e1, ih.mpr e2]

theorem ChunksOK_cons_of_NL (l : Str) (X : List Str) (hl : NLLine l)
    (hX : ChunksOK X) : ChunksOK (l :: X) := by
  obtain ⟨b, rfl, hb⟩ := hl
  cases X with
  | nil => simpa [ChunksOK, List.dropLast_concat] using hb
  | cons x xs => exact ⟨⟨b, rfl, hb⟩, hX⟩

theorem splitLines_append_nl (b : Str) (hb : '\n' ∉ b) :
    ∀ t, splitLines ((b ++ ['\n']) ++ t) = (b ++ ['\n']) :: splitLines t := by
  induction b with
  | nil =>
    intro t
    rw [List.nil_append, List.cons_append, List.nil_append, splitLines,
      if_pos rfl]
  | cons c b2 ih =>
    intro t
    have hc : ¬ c = '\n' := fun h => hb (by simp [h])
    have ih2 := ih (fun h => hb (List.mem_cons_of_mem c h)) t
    rw [List.cons_append, List.cons_append, splitLines, if_neg hc, ih2,
      splitLinesCons]

theorem splitLines_no_nl (l : Str) (hl : '\n' ∉ l) (hne : l ≠ []) :
    splitLines l = [l] := by
  induction l with
  | nil => exact absurd rfl hne
  | cons c rest ih =>
    have hc : ¬ c = '\n' := fun h => hl (by simp [h])
    rw [splitLines, if_neg hc]
    cases rest with
    | nil => rfl
    | cons d tl =>
      rw [ih (fun h => hl (List.mem_cons_of_mem c h)) (by simp), splitLinesCons]

theorem splitLines_ok (s : Str) :
    ChunksOK (splitLines s) ∧
      ∀ l ∈ splitLines s, l ≠ [] ∧ ∀ c ∈ l, c ∈ s := by
  induction s with
  | nil => simp [splitLines, ChunksOK]
  | cons c rest ih =>
    obtain ⟨ihOK, ihmem⟩ := ih
    by_cases hc : c = '\n'
    · subst hc
      rw [splitLines, if_pos rfl]
      constructor
      · exact ChunksOK_cons_of_NL _ _ ⟨[], rfl, by simp⟩ ihOK
      · intro l hl
        rcases List.mem_cons.mp hl with rfl | hl
        · refine ⟨by simp, ?_⟩
          intro x hx
          rw [List.mem_singleton.mp hx]
          exact List.mem_cons_self _ _
        · obtain ⟨h1, h2⟩ := ihmem l hl
          exact ⟨h1, fun x hx => List.mem_cons_of_mem _ (h2 x hx)⟩
    · rw [splitLines, if_neg hc]
      cases hsp : splitLines rest with
      | nil =>
        rw [splitLinesCons]
        refine ⟨by simp [ChunksOK], ?_⟩
        intro l hl
        rw [List.mem_singleton.mp hl]
        refine ⟨by simp, ?_⟩
        intro x hx
        rw [List.mem_singleton.mp hx]
        exact List.mem_cons_self _ _
      | cons hd tl =>
        rw [hsp] at ihOK
        have hdne : hd ≠ [] := (ihmem hd (by rw [hsp]; exact List.mem_cons_self _ _)).1
        rw [splitLinesCons]
        constructor
        · cases tl with
          | nil =>
            have hdl : '\n' ∉ hd.dropLast := ihOK
            show '\n' ∉ (c :: hd).dropLast
            have : (c :: hd).dropLast = c :: hd.dropLast := by
              cases hd with
              | nil => exact absurd rfl hdne
              | cons y ys => rfl
            rw [this]
            intro hmem
            rcases List.mem_cons.mp hmem with h | h
            · exact hc h.symm
            · exact hdl h
          | cons t2 ts =>
            obtain ⟨⟨b, rfl, hb⟩, hrest⟩ := ihOK
            refine ⟨⟨c :: b, by rw [List.cons_append], ?_⟩, hrest⟩
            intro hmem
            rcases List.mem_cons.mp hmem with h | h
            · exact hc h.symm
            · exact hb h
        · intro l hl
          rcases List.mem_cons.mp hl with rfl | hl
          · refine ⟨by simp, ?_⟩
            intro x hx
            rcases List.mem_cons.mp hx with rfl | hx
            · exact List.mem_cons_self _ _
            · have := (ihmem hd (by rw [hsp]; exact List.mem_cons_self _ _)).2 x hx
              exact List.mem_cons_of_mem _ this
          · have := ihmem l (by rw [hsp]; exact List.mem_cons_of_mem _ hl)
            exact ⟨this.1, fun x hx => List.mem_cons_of_mem _ (this.2 x hx)⟩

theorem nl_not_mem (l : Str) (hne : l ≠ []) (h1 : '\n' ∉ l.dropLast)
    (h2 : l.getLast? ≠ some '\n') : '\n' ∉ l := by
  intro hmem
  rw [← List.dropLast_append_getLast hne] at hmem
  rcases List.mem_append.mp hmem with h | h
  · exact h1 h
  · refine h2 ?_
    rw [List.getLast?_eq_getLast l hne, ← List.mem_singleton.mp h]

theorem splitLines_flatten : ∀ L : List Str, ChunksOK L →
    splitLines L.flatten = L.filter (fun l => !l.isEmpty)
  | [], _ => by simp [splitLines]
  | [l], h => by
    by_cases hnil : l = []
    · subst hnil
      simp [splitLines]
    · by_cases hnl : l.getLast? = some '\n'
      · obtain ⟨b, rfl⟩ := List.getLast?_eq_some_iff.mp hnl
        have h2 : '\n' ∉ (b ++ ['\n']).dropLast := h
        have hb : '\n' ∉ b := by
          rwa [List.dropLast_concat] at h2
        have hsp := splitLines_append_nl b hb []
        rw [List.append_nil] at hsp
        have hflat : ([b ++ ['\n']] : List Str).flatten = b ++ ['\n'] := by simp
        rw [hflat, hsp, List.filter_cons_of_pos (by simp), List.filter_nil]
        rfl
      · have hno : '\n' ∉ l := nl_not_mem l hnil h hnl
        have hflat : ([l] : List Str).flatten = l := by simp
        rw [hflat, splitLines_no_nl l hno hnil,
          List.filter_cons_of_pos (by simp [hnil]), List.filter_nil]
  | l :: l2 :: rest, h => by
    obtain ⟨⟨b, rfl, hb⟩, hrest⟩ := h
    rw [List.flatten_cons]
    rw [splitLines_append_nl b hb ((l2 :: rest).flatten)]
    have hf : List.filter (fun l => !List.isEmpty l) ((b ++ ['\n']) :: l2 :: rest) =
        (b ++ ['\n']) :: List.filter (fun l => !List.isEmpty l) (l2 :: rest) :=
      List.filter_cons_of_pos (by simp)
    rw [splitLines_flatten (l2 :: rest) hrest, hf]

theorem univTranslate_no_cr : ∀ s : Str, '\r' ∉ univTranslate s
  | [] => by simp [univTranslate]
  | [c] => by
    rw [univTranslate]
    split
    · simp
    · simp
      intro h
      exact absurd h.symm (by assumption)
  | c :: d :: rest => by
    rw [univTranslate]
    split
    · split
      · intro hmem
        rcases List.mem_cons.mp hmem with h | h
        · exact absurd h (by decide)
        · exact univTranslate_no_cr rest h
      · intro hmem
        rcases List.mem_cons.mp hmem with h | h
        · exact absurd h (by decide)
        · exact univTranslate_no_cr (d :: rest) h
    · intro hmem
      rcases List.mem_cons.mp hmem with h | h
      · exact absurd h.symm (by assumption)
      · exact univTranslate_no_cr (d :: rest) h

theorem univTranslate_id : ∀ s : Str, '\r' ∉ s → univTranslate s = s
  | [] => fun _ => by simp [univTranslate]
  | [c] => fun h => by
    have hc : ¬ c = '\r' := fun hc => h (by simp [hc])
    rw [univTranslate, if_neg hc]
  | c :: d :: rest => fun h => by
    have hc : ¬ c = '\r' := fun hc => h (by simp [hc])
    rw [univTranslate, if_neg hc,
      univTranslate_id (d :: rest) (fun hm => h (List.mem_cons_of_mem c hm))]

theorem rstripP_subset (p : Char → Bool) (s : Str) : rstripP p s ⊆ s := by
  intro x hx
  obtain ⟨t, ht, -⟩ := rstripP_decomp p s
  rw [ht]
  exact List.mem_append_left t hx

theorem fixLine_struct (l : Str) (hcr : '\r' ∉ l) (hint : '\n' ∉ l.dropLast) :
    '\r' ∉ (fixLine l).1 ∧ '\n' ∉ (fixLine l).1.dropLast ∧
      ((fixLine l).1.getLast? = some '\n' ↔ l.getLast? = some '\n') := by
  by_cases h1 : strip l = [] ∧ 1 < l.length
  · rw [fixLine_eq_w293 l h1]
    by_cases h2 : l.getLast? = some '\n'
    · rw [if_pos h2]
      exact ⟨by decide, by decide, ⟨fun _ => h2, fun _ => by simp⟩⟩
    · rw [if_neg h2]
      refine ⟨by simp, by simp, ?_⟩
      simp [h2]
  · by_cases h2 : rstrip l ≠ rstripChars ['\r', '\n'] (rstripChars ['\n'] l)
    · rw [fixLine_eq_w291 l h1 h2]
      by_cases h3 : l.getLast? = some '\n' ∧ l.dropLast.getLast? = some '\r'
      · exfalso
        obtain ⟨ys, hys⟩ := List.getLast?_eq_some_iff.mp h3.2
        apply hcr
        have hm : '\r' ∈ l.dropLast := by rw [hys]; simp
        exact (List.dropLast_sublist l).subset hm
      · by_cases h4 : l.getLast? = some '\n'
        · rw [if_neg h3, if_pos h4]
          obtain ⟨b, rfl⟩ := List.getLast?_eq_some_iff.mp h4
          have hb : '\n' ∉ b := by rwa [List.dropLast_concat] at hint
          have hre : rstrip (b ++ ['\n']) = rstrip b :=
            rstripP_append_all pyIsSpace ['\n'] (by decide) b
          rw [hre]
          have hsub : rstrip b ⊆ b := rstripP_subset pyIsSpace b
          refine ⟨?_, ?_, ?_⟩
          · intro hmem
            rcases List.mem_append.mp hmem with h | h
            · exact hcr (List.mem_append_left ['\n'] (hsub h))
            · simp at h
          · rw [List.dropLast_concat]
            exact fun h => hb (hsub h)
          · exact ⟨fun _ => h4, fun _ => List.getLast?_concat _⟩
        · rw [if_neg h3, if_neg h4]
          rcases rstrip_shape l with hr0 | ⟨u, c, huc, hc⟩
          · rw [rstrip] at hr0
            rw [rstrip, hr0]
            exact ⟨by simp, by simp, by simp [h4]⟩
          · refine ⟨?_, ?_, ?_⟩
            · intro hmem
              exact hcr (rstripP_subset pyIsSpace l hmem)
            · have hlne : l ≠ [] := by
                intro h0
                rw [rstrip, h0] at huc
                have h9 : ([] : Str) = u ++ [c] := huc
                exact absurd h9.symm (by simp)
              have hno : '\n' ∉ l := nl_not_mem l hlne hint h4
              intro hmem
              exact hno (rstripP_subset pyIsSpace l
                ((List.dropLast_sublist _).subset hmem))
            · rw [rstrip] at huc
              rw [rstrip, huc, List.getLast?_concat]
              simp [h4]
              exact (not_ws_ne c hc).1
    · rw [fixLine_eq_none l h1 h2]
      exact ⟨hcr, hint, Iff.rfl⟩

theorem fixLines_struct : ∀ L : List Str, ChunksOK L → (∀ l ∈ L, '\r' ∉ l) →
    ChunksOK (fixLines L).1 ∧ ∀ o ∈ (fixLines L).1, '\r' ∉ o
  | [], _, _ => by simp [fixLines, ChunksOK]
  | [l], h, hcr => by
    have hint : '\n' ∉ l.dropLast := h
    obtain ⟨q1, q2, q3⟩ := fixLine_struct l (hcr l (by simp)) hint
    have he : (fixLines [l]).1 = [(fixLine l).1] := by simp [fixLines]
    rw [he]
    refine ⟨q2, ?_⟩
    intro o ho
    rw [List.mem_singleton.mp ho]
    exact q1
  | l :: l2 :: rest, h, hcr => by
    obtain ⟨hNL, hrest⟩ := h
    obtain ⟨b, hb1, hb2⟩ := hNL
    have hint : '\n' ∉ l.dropLast := by rw [hb1, List.dropLast_concat]; exact hb2
    obtain ⟨q1, q2, q3⟩ := fixLine_struct l (hcr l (by simp)) hint
    obtain ⟨ihOK, ihcr⟩ := fixLines_struct (l2 :: rest) hrest
      (fun x hx => hcr x (List.mem_cons_of_mem l hx))
    have he : (fixLines (l :: l2 :: rest)).1 =
        (fixLine l).1 :: (fixLines (l2 :: rest)).1 := by simp [fixLines]
    rw [he]
    constructor
    · apply ChunksOK_cons_of_NL
      · have hend : (fixLine l).1.getLast? = some '\n' :=
          q3.mpr (by rw [hb1]; exact List.getLast?_concat b)
        obtain ⟨ys, hys⟩ := List.getLast?_eq_some_iff.mp hend
        refine ⟨ys, hys, ?_⟩
        have hq := q2
        rwa [hys, List.dropLast_concat] at hq
      · exact ihOK
    · intro o ho
      rcases List.mem_cons.mp ho with rfl | ho
      · exact q1
      · exact ihcr o ho

/-- Core of idempotence: re-reading the rewritten content and running the
loop again changes nothing and counts nothing. -/
theorem fixLines_readlines_flatten (c : Str) :
    fixLines (readlines ((fixLines (readlines c)).1.flatten)) =
      (readlines ((fixLines (readlines c)).1.flatten), 0, 0) := by
  obtain ⟨hOK, hmem⟩ := splitLines_ok (univTranslate c)
  have hcrL : ∀ l ∈ readlines c, '\r' ∉ l :=
    fun l hl hm => univTranslate_no_cr c ((hmem l hl).2 '\r' hm)
  obtain ⟨hOK2, hcr2⟩ := fixLines_struct (readlines c) hOK hcrL
  have hcrC : '\r' ∉ (fixLines (readlines c)).1.flatten := by
    intro hm
    obtain ⟨o, ho, hom⟩ := List.mem_flatten.mp hm
    exact hcr2 o ho hom
  have hsplit : readlines ((fixLines (readlines c)).1.flatten) =
      (fixLines (readlines c)).1.filter (fun l => !l.isEmpty) := by
    show splitLines (univTranslate _) = _
    rw [univTranslate_id _ hcrC]
    exact splitLines_flatten _ hOK2
  rw [hsplit]
  apply fixLines_of_fixpoints
  intro x hx
  have hx2 : x ∈ (fixLines (readlines c)).1 := (List.mem_filter.mp hx).1
  rw [fixLines_fst] at hx2
  obtain ⟨l, -, hxl⟩ := List.mem_map.mp hx2
  rw [← hxl]
  exact fixLine_idem l

theorem walk_mem_aux : ∀ n : Nat, ∀ entries : List FSTree, sizeOf entries ≤ n →
    (∀ path p, p ∈ walkSub path entries ↔
      ∃ d des, FSTree.dir d des ∈ entries ∧ keepDir d = true ∧
        PyVisible (pathJoin path d) des p) ∧
    (∀ path p, p ∈ walkDir path entries ↔ PyVisible path entries p) := by
  intro n
  induction n with
  | zero =>
    intro entries h
    exfalso
    cases entries <;> simp at h
  | succ n ih =>
    intro entries hsize
    have subA : ∀ path p, p ∈ walkSub path entries ↔
        ∃ d des, FSTree.dir d des ∈ entries ∧ keepDir d = true ∧
          PyVisible (pathJoin path d) des p := by
      induction entries with
      | nil => intro path p; simp [walkSub]
      | cons t ts ihts =>
        have hts : sizeOf ts ≤ n := by
          cases t <;> (simp at hsize ⊢; omega)
        intro path p
        cases t with
        | file f =>
          rw [show walkSub path (FSTree.file f :: ts) = walkSub path ts from by
            rw [walkSub]]
          rw [(ihts (by cases ts <;> first | (simp at hsize ⊢; omega) | (simp at hsize; omega)) ) path p]
          constructor
          · rintro ⟨d, des, hmem, hk, hv⟩
            exact ⟨d, des, List.mem_cons_of_mem _ hmem, hk, hv⟩
          · rintro ⟨d, des, hmem, hk, hv⟩
            rcases List.mem_cons.mp hmem with heq | hmem2
            · exact absurd heq (by simp)
            · exact ⟨d, des, hmem2, hk, hv⟩
        | dir d des =>
          have hdes : sizeOf des ≤ n := by simp at hsize; omega
          rw [show walkSub path (FSTree.dir d des :: ts) =
              (if keepDir d then walkDir (pathJoin path d) des else []) ++
                walkSub path ts from by rw [walkSub]]
          rw [List.mem_append,
            (ihts (by simp at hsize ⊢; omega)) path p]
          constructor
          · rintro (hin | ⟨d2, des2, hmem, hk, hv⟩)
            · by_cases hk : keepDir d = true
              · rw [if_pos hk] at hin
                have hv := ((ih des hdes).2 (pathJoin path d) p).mp hin
                exact ⟨d, des, List.mem_cons_self _ _, hk, hv⟩
              · rw [if_neg hk] at hin
                simp at hin
            · exact ⟨d2, des2, List.mem_cons_of_mem _ hmem, hk, hv⟩
          · rintro ⟨d2, des2, hmem, hk, hv⟩
            rcases List.mem_cons.mp hmem with heq | hmem2
            · left
              injection heq with h1 h2
              rw [h1] at hk
              rw [h1, h2] at hv
              rw [if_pos hk]
              exact ((ih des hdes).2 (pathJoin path d) p).mpr hv
            · exact Or.inr ⟨d2, des2, hmem2, hk, hv⟩
    refine ⟨subA, ?_⟩
    intro path p
    rw [show walkDir path entries = entries.filterMap (pyEntry path) ++
      walkSub path entries from by rw [walkDir]]
    rw [List.mem_append, subA path p]
    constructor
    · rintro (hin | ⟨d, des, hmem, hk, hv⟩)
      · obtain ⟨t, htmem, hteq⟩ := List.mem_filterMap.mp hin
        cases t with
        | file f =>
          rw [pyEntry] at hteq
          by_cases hpy : endsWithPy f = true
          · rw [if_pos hpy] at hteq
            obtain rfl := Option.some.inj hteq
            exact PyVisible.here path entries f htmem hpy
          · rw [if_neg hpy] at hteq
            simp at hteq
        | dir d des =>
          rw [pyEntry] at hteq
          simp at hteq
      · exact PyVisible.there path entries d des p hmem hk hv
    · intro hv
      cases hv with
      | here pa en f hmem hpy =>
        left
        exact List.mem_filterMap.mpr ⟨FSTree.file f, hmem, by
          rw [pyEntry, if_pos hpy]⟩
      | there pa en d des pp hmem hk hv2 =>
        exact Or.inr ⟨d, des, hmem, hk, hv2⟩

theorem find_python_files_mem (root : String) (entries : List FSTree)
    (p : String) :
    p ∈ find_python_files root entries ↔ PyVisible root entries p :=
  ((walk_mem_aux (sizeOf entries) entries (Nat.le_refl _)).2 root p)

theorem walkSub_skip (path d : String) (des : List FSTree) (ts : List FSTree)
    (h : keepDir d = false) :
    walkSub path (FSTree.dir d des :: ts) = walkSub path ts := by
  rw [walkSub, if_neg (by rw [h]; exact Bool.false_ne_true), List.nil_append]

theorem charListLe_trans : ∀ a b c : List Char,
    charListLe a b = true → charListLe b c = true → charListLe a c = true := by
  intro a
  induction a with
  | nil => intro b c _ _; rfl
  | cons x xs ih =>
    intro b c hab hbc
    cases b with
    | nil => simp [charListLe] at hab
    | cons y ys =>
      cases c with
      | nil => simp [charListLe] at hbc
      | cons z zs =>
        rw [charListLe] at hab hbc ⊢
        by_cases hxy : x = y
        · subst hxy
          rw [if_pos rfl] at hab
          by_cases hyz : x = z
          · subst hyz
            rw [if_pos rfl] at hbc ⊢
            exact ih ys zs hab hbc
          · rw [if_neg hyz] at hbc ⊢
            exact hbc
        · rw [if_neg hxy] at hab
          have hlt1 : x < y := of_decide_eq_true hab
          by_cases hyz : y = z
          · subst hyz
            rw [if_neg hxy]
            exact hab
          · rw [if_neg hyz] at hbc
            have hlt2 : y < z := of_decide_eq_true hbc
            have hlt : x < z := lt_trans hlt1 hlt2
            rw [if_neg (ne_of_lt hlt)]
            exact decide_eq_true hlt

theorem charListLe_total : ∀ a b : List Char,
    charListLe a b = true ∨ charListLe b a = true := by
  intro a
  induction a with
  | nil => intro b; exact Or.inl rfl
  | cons x xs ih =>
    intro b
    cases b with
    | nil => exact Or.inr rfl
    | cons y ys =>
      rw [charListLe, charListLe]
      by_cases hxy : x = y
      · subst hxy
        rw [if_pos rfl, if_pos rfl]
        exact ih ys
      · rw [if_neg hxy, if_neg (Ne.symm hxy)]
        rcases lt_or_gt_of_ne (show (x : Char) ≠ y from hxy) with h | h
        · exact Or.inl (decide_eq_true h)
        · exact Or.inr (decide_eq_true h)

theorem charListLe_antisymm : ∀ a b : List Char,
    charListLe a b = true → charListLe b a = true → a = b := by
  intro a
  induction a with
  | nil =>
    intro b _ hba
    cases b with
    | nil => rfl
    | cons y ys => simp [charListLe] at hba
  | cons x xs ih =>
    intro b hab hba
    cases b with
    | nil => simp [charListLe] at hab
    | cons y ys =>
      rw [charListLe] at hab hba
      by_cases hxy : x = y
      · subst hxy
        rw [if_pos rfl] at hab hba
        rw [ih ys hab hba]
      · rw [if_neg hxy] at hab
        rw [if_neg (Ne.symm hxy)] at hba
        exact absurd (of_decide_eq_true hba)
          (not_lt_of_gt (of_decide_eq_true hab))

instance : IsTrans (String × FileState) pathLe :=
  ⟨fun a b c hab hbc => charListLe_trans a.1.toList b.1.toList c.1.toList hab hbc⟩

instance : IsTotal (String × FileState) pathLe :=
  ⟨fun a b => charListLe_total a.1.toList b.1.toList⟩

theorem sortByPath_sorted (files : List (String × FileState)) :
    List.Sorted pathLe (sortByPath files) :=
  List.sorted_insertionSort pathLe files

theorem sortByPath_perm (files : List (String × FileState)) :
    (sortByPath files).Perm files :=
  List.perm_insertionSort pathLe files

theorem pathLe_antisymm_fst (a b : String × FileState) (hab : pathLe a b)
    (hba : pathLe b a) : a.1 = b.1 :=
  String.ext (charListLe_antisymm a.1.toList b.1.toList hab hba)

/-- Two sorted lists that are permutations of each other and have pairwise
distinct paths are equal: the driver's output does not depend on the
enumeration order of the walk. -/
theorem sorted_perm_nodup_eq : ∀ l1 l2 : List (String × FileState),
    l1.Perm l2 → List.Sorted pathLe l1 → List.Sorted pathLe l2 →
    (l1.map Prod.fst).Nodup → l1 = l2 := by
  intro l1
  induction l1 with
  | nil =>
    intro l2 hp _ _ _
    exact (hp.symm.eq_nil).symm
  | cons a t1 ih =>
    intro l2 hp hs1 hs2 hnd
    cases l2 with
    | nil => exact absurd hp.eq_nil (by simp)
    | cons b t2 =>
      have hab : a = b := by
        rcases List.mem_cons.mp (hp.mem_iff.mp (List.mem_cons_self a t1))
          with heq | hat2
        · exact heq
        · rcases List.mem_cons.mp (hp.symm.mem_iff.mp
            (List.mem_cons_self b t2)) with heq | hbt1
          · exact heq.symm
          · exfalso
            have h1 : pathLe a b := List.rel_of_sorted_cons hs1 b hbt1
            have h2 : pathLe b a := List.rel_of_sorted_cons hs2 a hat2
            have hfst : a.1 = b.1 := pathLe_antisymm_fst a b h1 h2
            rw [List.map_cons] at hnd
            have : b.1 ∈ t1.map Prod.fst := List.mem_map_of_mem Prod.fst hbt1
            rw [← hfst] at this
            exact (List.nodup_cons.mp hnd).1 this
      subst hab
      have hteq := ih t2 hp.cons_inv (List.Sorted.of_cons hs1)
        (List.Sorted.of_cons hs2)
        (by rw [List.map_cons] at hnd; exact (List.nodup_cons.mp hnd).2)
      rw [hteq]

theorem fix_readErr_eq (p e : String) (c : Str) (w : Option String) :
    fix_whitespace_in_file p ⟨c, some e, w⟩ =
      { w293 := 0, w291 := 0
        printed := [(Chan.stdout, "Error reading " ++ p ++ ": " ++ e)]
        wrote := false, newContent := c } := rfl

theorem fix_none_eq (p : String) (c : Str) (w : Option String) :
    fix_whitespace_in_file p ⟨c, none, w⟩ =
      if (fixLines (readlines c)).1 = readlines c then
        { w293 := (fixLines (readlines c)).2.1
          w291 := (fixLines (readlines c)).2.2
          printed := [], wrote := false, newContent := c }
      else
        match w with
        | some e =>
          { w293 := 0, w291 := 0
            printed := [(Chan.stdout, "Error writing " ++ p ++ ": " ++ e)]
            wrote := false, newContent := c }
        | none =>
          { w293 := (fixLines (readlines c)).2.1
            w291 := (fixLines (readlines c)).2.2
            printed := [], wrote := true
            newContent := (fixLines (readlines c)).1.flatten } := rfl

theorem fix_second_run (p q : String) (c : Str) :
    fix_whitespace_in_file q
        ⟨(fix_whitespace_in_file p ⟨c, none, none⟩).newContent, none, none⟩ =
      { w293 := 0, w291 := 0, printed := [], wrote := false
        newContent := (fix_whitespace_in_file p ⟨c, none, none⟩).newContent } := by
  rw [fix_none_eq p c none]
  by_cases h : (fixLines (readlines c)).1 = readlines c
  · rw [if_pos h]
    show fix_whitespace_in_file q ⟨c, none, none⟩ =
      { w293 := 0, w291 := 0, printed := [], wrote := false, newContent := c }
    rw [fix_none_eq q c none, if_pos h]
    obtain ⟨z1, z2⟩ := (fixLines_unchanged_iff (readlines c)).mp h
    rw [z1, z2]
  · rw [if_neg h]
    show fix_whitespace_in_file q
        ⟨(fixLines (readlines c)).1.flatten, none, none⟩ =
      { w293 := 0, w291 := 0, printed := [], wrote := false
        newContent := (fixLines (readlines c)).1.flatten }
    rw [fix_none_eq q _ none, fixLines_readlines_flatten c]
    dsimp only
    rw [if_pos rfl]

/-- C1: the spec asserts that a line read with a carriage-return+line-feed
terminator keeps that terminator in the output.  The code itself intends
this (its comment says `Preserve the original line ending` and it tests
`line.endswith('\r\n')`), but the file is opened in text mode with
universal newlines, which rewrites every `\r\n` to `\n` before that test
can ever see it; on a POSIX host the rewritten file ends in a bare `\n`.
This theorem evaluates the code at the failing input `"x \r\n"`: the single
input line ends with `\r\n`, the line is fixed under rule 2, the file is
rewritten, and the written line ends in `\n` alone. -/
theorem claim_C1_crlf_lost :
    List.isSuffixOf (pyStr "\r\n") (pyStr "x \r\n") = true ∧
    readlines (pyStr "x \r\n") = [pyStr "x \n"] ∧
    (fix_whitespace_in_file "f.py" ⟨pyStr "x \r\n", none, none⟩).wrote = true ∧
    (fix_whitespace_in_file "f.py" ⟨pyStr "x \r\n", none, none⟩).newContent =
      pyStr "x\n" ∧
    List.isSuffixOf (pyStr "\r\n")
      (fix_whitespace_in_file "f.py" ⟨pyStr "x \r\n", none, none⟩).newContent =
      false := by decide

/-- C2 counterexample: the file whose whole content is a single space is one
whitespace-only line of length 1 with no terminator; the `len(line) > 1`
guard makes rule 1 skip it, and rule 2 then counts it as a trailing
whitespace (W291) fix — contradicting the claim that a whitespace-only line
is always classified W293 and never increments W291. -/
theorem claim_C2_counterexample :
    strip (pyStr " ") = [] ∧
    fixLine (pyStr " ") = ([], 0, 1) ∧
    (fix_whitespace_in_file "f.py" ⟨pyStr " ", none, none⟩).w293 = 0 ∧
    (fix_whitespace_in_file "f.py" ⟨pyStr " ", none, none⟩).w291 = 1 := by decide

/-- C2 as amended: every whitespace-only line of raw length greater than one
is classified as a W293 fix and contributes nothing to the W291 counter. -/
theorem claim_C2_amended (l : Str) (h1 : strip l = []) (h2 : 1 < l.length) :
    (fixLine l).2.1 = 1 ∧ (fixLine l).2.2 = 0 := by
  rw [fixLine_eq_w293 l ⟨h1, h2⟩]
  exact ⟨rfl, rfl⟩

theorem claim_C2_amended_witness :
    strip (pyStr "  ") = [] ∧ 1 < (pyStr "  ").length ∧
      ((fixLine (pyStr "  ")).2.1 = 1 ∧ (fixLine (pyStr "  ")).2.2 = 0) :=
  ⟨by decide, by decide, claim_C2_amended (pyStr "  ") (by decide) (by decide)⟩

/-- C3: the blank-with-whitespace rule fires on a line exactly when the line
stripped of whitespace is empty and the raw line is longer than a single
(terminator) character — `line.strip() == '' and len(line) > 1`; a line that
is exactly its terminator is never counted and is returned unchanged, and a
file consisting of one bare `\r\n` line (read as the single line `"\n"`) is
left untouched with counts (0, 0). -/
theorem claim_C3_w293_iff :
    (∀ l : Str, (fixLine l).2.1 = 1 ↔ (strip l = [] ∧ 1 < l.length)) ∧
    fixLine (pyStr "\n") = (pyStr "\n", 0, 0) ∧
    fixLine (pyStr "") = (pyStr "", 0, 0) ∧
    fix_whitespace_in_file "f.py" ⟨pyStr "\r\n", none, none⟩ =
      { w293 := 0, w291 := 0, printed := [], wrote := false
        newContent := pyStr "\r\n" } := by
  refine ⟨?_, by decide, by decide, by decide⟩
  intro l
  constructor
  · intro h
    by_cases h1 : strip l = [] ∧ 1 < l.length
    · exact h1
    · exfalso
      by_cases h2 : rstrip l ≠ rstripChars ['\r', '\n'] (rstripChars ['\n'] l)
      · rw [fixLine_eq_w291 l h1 h2] at h
        simp at h
      · rw [fixLine_eq_none l h1 h2] at h
        simp at h
  · rintro ⟨h1, h2⟩
    rw [fixLine_eq_w293 l ⟨h1, h2⟩]

/-- C4: the fixer is idempotent.  Re-running it on the on-disk content it
produced returns counts (0, 0), performs no write, prints nothing, and
leaves the content identical; consequently, over any file tree, the totals
of a second run are all zero. -/
theorem claim_C4_idempotent :
    (∀ (p q : String) (c : Str),
      fix_whitespace_in_file q
          ⟨(fix_whitespace_in_file p ⟨c, none, none⟩).newContent, none, none⟩ =
        { w293 := 0, w291 := 0, printed := [], wrote := false
          newContent := (fix_whitespace_in_file p ⟨c, none, none⟩).newContent }) ∧
    (∀ files : List (String × Str),
      runTotals (files.map (fun f =>
        (f.1, ⟨(fix_whitespace_in_file f.1 ⟨f.2, none, none⟩).newContent,
          none, none⟩))) = (0, 0, 0)) := by
  refine ⟨fix_second_run, ?_⟩
  intro files
  induction files with
  | nil => rfl
  | cons f rest ih =>
    rw [List.map_cons, runTotals, fix_second_run f.1 f.1 f.2]
    rw [if_neg (by simp)]
    exact ih

/-- C5: on a file whose reads and writes succeed, the fixer rewrites the
file exactly when some line changed; equivalently, no write happens exactly
when both returned counts are zero, and in that case the on-disk content is
the original one, byte for byte. -/
theorem claim_C5_write_iff (p : String) (c : Str) :
    ((fix_whitespace_in_file p ⟨c, none, none⟩).wrote = true ↔
      (fixLines (readlines c)).1 ≠ readlines c) ∧
    ((fix_whitespace_in_file p ⟨c, none, none⟩).wrote = false ↔
      ((fix_whitespace_in_file p ⟨c, none, none⟩).w293 = 0 ∧
        (fix_whitespace_in_file p ⟨c, none, none⟩).w291 = 0)) ∧
    ((fix_whitespace_in_file p ⟨c, none, none⟩).wrote = false →
      (fix_whitespace_in_file p ⟨c, none, none⟩).newContent = c) := by
  rw [fix_none_eq p c none]
  by_cases h : (fixLines (readlines c)).1 = readlines c
  · rw [if_pos h]
    obtain ⟨z1, z2⟩ := (fixLines_unchanged_iff (readlines c)).mp h
    dsimp only
    refine ⟨?_, ?_, fun _ => rfl⟩
    · simp [h]
    · simp [z1, z2]
  · rw [if_neg h]
    dsimp only
    refine ⟨?_, ?_, ?_⟩
    · simp [h]
    · constructor
      · intro hw
        exact absurd hw (by simp)
      · rintro ⟨z1, z2⟩
        exact absurd ((fixLines_unchanged_iff (readlines c)).mpr ⟨z1, z2⟩) h
    · intro hw
      exact absurd hw (by simp)

theorem claim_C5_witness :
    ((fix_whitespace_in_file "a.py" ⟨pyStr "x\n", none, none⟩).wrote = false) ∧
    ((fix_whitespace_in_file "a.py" ⟨pyStr "x\n", none, none⟩).newContent =
      pyStr "x\n") ∧
    ((fix_whitespace_in_file "b.py" ⟨pyStr "x \n", none, none⟩).wrote = true) :=
  ⟨by decide,
    (claim_C5_write_iff "a.py" (pyStr "x\n")).2.2 (by decide),
    (claim_C5_write_iff "b.py" (pyStr "x \n")).1.mpr (by decide)⟩

/-- C6: a failing open-for-read yields counts (0, 0), exactly one diagnostic
naming the file and the error, no write and no content change; a failing
open-for-write (reached only when some line changed) does the same with the
writing diagnostic; an erroring file contributes nothing to the running
totals; and the loop's output decomposes around any one file, so the run
always continues with the files after it, in order. -/
theorem claim_C6_error_contained :
    (∀ (p e : String) (c : Str) (w : Option String),
      fix_whitespace_in_file p ⟨c, some e, w⟩ =
        { w293 := 0, w291 := 0
          printed := [(Chan.stdout, "Error reading " ++ p ++ ": " ++ e)]
          wrote := false, newContent := c }) ∧
    (∀ (p e : String) (c : Str), (fixLines (readlines c)).1 ≠ readlines c →
      fix_whitespace_in_file p ⟨c, none, some e⟩ =
        { w293 := 0, w291 := 0
          printed := [(Chan.stdout, "Error writing " ++ p ++ ": " ++ e)]
          wrote := false, newContent := c }) ∧
    (∀ (p e : String) (c : Str) (w : Option String)
        (rest : List (String × FileState)),
      runTotals ((p, ⟨c, some e, w⟩) :: rest) = runTotals rest) ∧
    (∀ (l1 : List (String × FileState)) (f : String × FileState)
        (l2 : List (String × FileState)),
      (l1 ++ f :: l2).flatMap perFileStdout =
        l1.flatMap perFileStdout ++ perFileStdout f ++
          l2.flatMap perFileStdout) := by
  refine ⟨fun p e c w => fix_readErr_eq p e c w, ?_, ?_, ?_⟩
  · intro p e c h
    rw [fix_none_eq p c (some e), if_neg h]
  · intro p e c w rest
    rw [runTotals, fix_readErr_eq p e c w]
    rw [if_neg (by simp)]
  · intro l1 f l2
    rw [List.flatMap_append, List.flatMap_cons, List.append_assoc]

theorem claim_C6_witness :
    ((fixLines (readlines (pyStr " x \n"))).1 ≠ readlines (pyStr " x \n")) ∧
    fix_whitespace_in_file "g.py" ⟨pyStr " x \n", none, some "disk full"⟩ =
      { w293 := 0, w291 := 0
        printed := [(Chan.stdout, "Error writing g.py: disk full")]
        wrote := false, newContent := pyStr " x \n" } := by
  refine ⟨by decide, ?_⟩
  have h := claim_C6_error_contained.2.1 "g.py" "disk full" (pyStr " x \n")
    (by decide)
  rw [h]
  decide

/-- C7 counterexample: CPython's `print` without a `file=` argument writes
to standard output, and both diagnostics of the script use plain `print`;
at a concrete failing read the diagnostic is therefore emitted on stdout,
which is not the error stream — refuting the claim that these diagnostics
go to the error stream. -/
theorem claim_C7_counterexample :
    (fix_whitespace_in_file "f.py" ⟨pyStr "", some "boom", none⟩).printed =
      [(Chan.stdout, "Error reading f.py: boom")] ∧
    Chan.stdout ≠ Chan.stderr := by decide

/-- C7 as amended: the per-file failure diagnostics, with exactly the text
`Error reading {filepath}: {error}` / `Error writing {filepath}: {error}`,
are emitted on standard output (everything this program prints goes to
standard output), and the run is not halted. -/
theorem claim_C7_amended :
    (∀ (p e : String) (c : Str) (w : Option String),
      (fix_whitespace_in_file p ⟨c, some e, w⟩).printed =
        [(Chan.stdout, "Error reading " ++ p ++ ": " ++ e)]) ∧
    (∀ (p e : String) (c : Str), (fixLines (readlines c)).1 ≠ readlines c →
      (fix_whitespace_in_file p ⟨c, none, some e⟩).printed =
        [(Chan.stdout, "Error writing " ++ p ++ ": " ++ e)]) ∧
    (∀ (p : String) (st : FileState) (ch : Chan) (s : String),
      (ch, s) ∈ (fix_whitespace_in_file p st).printed → ch = Chan.stdout) ∧
    (∀ (l1 : List (String × FileState)) (f : String × FileState)
        (l2 : List (String × FileState)),
      (l1 ++ f :: l2).flatMap perFileStdout =
        l1.flatMap perFileStdout ++ perFileStdout f ++
          l2.flatMap perFileStdout) := by
  refine ⟨?_, ?_, ?_, ?_⟩
  · intro p e c w
    rw [fix_readErr_eq p e c w]
  · intro p e c h
    rw [fix_none_eq p c (some e), if_neg h]
  · intro p st ch s hmem
    rcases st with ⟨c, re, we⟩
    cases re with
    | some e =>
      rw [fix_readErr_eq p e c we] at hmem
      simp at hmem
      exact hmem.1
    | none =>
      cases we with
      | some e =>
        by_cases hch : (fixLines (readlines c)).1 = readlines c
        · rw [fix_none_eq p c (some e), if_pos hch] at hmem
          simp at hmem
        · rw [fix_none_eq p c (some e), if_neg hch] at hmem
          simp at hmem
          exact hmem.1
      | none =>
        by_cases hch : (fixLines (readlines c)).1 = readlines c
        · rw [fix_none_eq p c none, if_pos hch] at hmem
          simp at hmem
        · rw [fix_none_eq p c none, if_neg hch] at hmem
          simp at hmem
  · intro l1 f l2
    rw [List.flatMap_append, List.flatMap_cons, List.append_assoc]

theorem claim_C7_witness :
    ((fixLines (readlines (pyStr "y \n"))).1 ≠ readlines (pyStr "y \n")) ∧
    (fix_whitespace_in_file "h.py" ⟨pyStr "y \n", none, some "io error"⟩).printed =
      [(Chan.stdout, "Error writing h.py: io error")] := by
  refine ⟨by decide, ?_⟩
  have h := claim_C7_amended.2.1 "h.py" "io error" (pyStr "y \n") (by decide)
  rw [h]
  decide

theorem printed_nil_of_pos (p : String) (st : FileState)
    (h : 0 < (fix_whitespace_in_file p st).w293 ∨
      0 < (fix_whitespace_in_file p st).w291) :
    (fix_whitespace_in_file p st).printed = [] := by
  rcases st with ⟨c, re, we⟩
  cases re with
  | some e =>
    rw [fix_readErr_eq p e c we] at h
    simp at h
  | none =>
    cases we with
    | some e =>
      by_cases hch : (fixLines (readlines c)).1 = readlines c
      · rw [fix_none_eq p c (some e), if_pos hch]
      · rw [fix_none_eq p c (some e), if_neg hch] at h
        simp at h
    | none =>
      by_cases hch : (fixLines (readlines c)).1 = readlines c
      · rw [fix_none_eq p c none, if_pos hch]
      · rw [fix_none_eq p c none, if_neg hch]

/-- C9: the driver prints the per-file line `{filepath}: Fixed W293={a},
W291={b}` for a file exactly when that file reported at least one fix (a
file reporting (0, 0) contributes only its own diagnostics, never a report
line); the driver processes the files sorted by path under Python's string
order; and its entire output is invariant under re-ordering of the
discovered files, provided the paths are distinct. -/
theorem claim_C9_report :
    (∀ f : String × FileState,
      (0 < (fix_whitespace_in_file f.1 f.2).w293 ∨
          0 < (fix_whitespace_in_file f.1 f.2).w291 →
        perFileStdout f =
          [fixedLineFor f.1 (fix_whitespace_in_file f.1 f.2).w293
            (fix_whitespace_in_file f.1 f.2).w291]) ∧
      (¬(0 < (fix_whitespace_in_file f.1 f.2).w293 ∨
          0 < (fix_whitespace_in_file f.1 f.2).w291) →
        perFileStdout f =
          (fix_whitespace_in_file f.1 f.2).printed.map Prod.snd)) ∧
    (∀ files : List (String × FileState),
      List.Sorted pathLe (sortByPath files)) ∧
    (∀ files : List (String × FileState), (sortByPath files).Perm files) ∧
    (∀ files1 files2 : List (String × FileState), files1.Perm files2 →
      (files1.map Prod.fst).Nodup → runMain files1 = runMain files2) := by
  refine ⟨?_, sortByPath_sorted, sortByPath_perm, ?_⟩
  · intro f
    constructor
    · intro h
      rw [perFileStdout, printed_nil_of_pos f.1 f.2 h, if_pos h]
      rfl
    · intro h
      rw [perFileStdout, if_neg h, List.append_nil]
  · intro files1 files2 hp hnd
    have hnd2 : ((sortByPath files1).map Prod.fst).Nodup :=
      ((sortByPath_perm files1).map Prod.fst).nodup_iff.mpr hnd
    have hsp : sortByPath files1 = sortByPath files2 :=
      sorted_perm_nodup_eq _ _
        ((sortByPath_perm files1).trans (hp.trans (sortByPath_perm files2).symm))
        (sortByPath_sorted files1) (sortByPath_sorted files2) hnd2
    simp only [runMain]
    rw [hsp, hp.length_eq]

theorem claim_C9_witness :
    perFileStdout ("b.py", ⟨pyStr " \n", none, none⟩) =
      [fixedLineFor "b.py" 1 0] ∧
    runMain [("b.py", ⟨pyStr " \n", none, none⟩),
        ("a.py", ⟨pyStr "y\n", none, none⟩)] =
      runMain [("a.py", ⟨pyStr "y\n", none, none⟩),
        ("b.py", ⟨pyStr " \n", none, none⟩)] := by
  constructor
  · have h := (claim_C9_report.1 ("b.py", ⟨pyStr " \n", none, none⟩)).1 (by decide)
    rw [h]
    decide
  · exact claim_C9_report.2.2.2 _ _
      (List.Perm.swap (("a.py", ⟨pyStr "y\n", none, none⟩) : String × FileState)
        (("b.py", ⟨pyStr " \n", none, none⟩) : String × FileState) [])
      (by decide)

/-- C8: the discoverer returns exactly the paths of `.py` files reachable
from the root through subdirectories it does not prune, where the pruning
removes — whatever their contents — every directory whose name starts with
`.` and every directory named `__pycache__`, `venv`, `env`, `build` or
`dist`; nothing under a pruned directory is ever visited. -/
theorem claim_C8_discoverer :
    (∀ (root : String) (entries : List FSTree) (p : String),
      p ∈ find_python_files root entries ↔ PyVisible root entries p) ∧
    (∀ (path d : String) (des ts : List FSTree), keepDir d = false →
      walkSub path (FSTree.dir d des :: ts) = walkSub path ts) ∧
    keepDir ".git" = false ∧ keepDir "__pycache__" = false ∧
    keepDir "venv" = false ∧ keepDir "env" = false ∧
    keepDir "build" = false ∧ keepDir "dist" = false := by
  refine ⟨find_python_files_mem, ?_, by decide, by decide, by decide,
    by decide, by decide, by decide⟩
  intro path d des ts h
  exact walkSub_skip path d des ts h

theorem claim_C8_witness :
    keepDir ".git" = false ∧
    walkSub "." [FSTree.dir ".git" [FSTree.file "secret.py"],
        FSTree.file "a.py"] =
      walkSub "." [FSTree.file "a.py"] ∧
    find_python_files "."
        [FSTree.dir ".git" [FSTree.file "secret.py"], FSTree.file "a.py"] =
      [pathJoin "." "a.py"] := by
  refine ⟨by decide,
    claim_C8_discoverer.2.1 "." ".git" [FSTree.file "secret.py"]
      [FSTree.file "a.py"] (by decide), ?_⟩
  have hg : keepDir ".git" = false := by decide
  simp only [find_python_files, walkDir, walkSub, hg]
  decide

/-- C10: the pruning filter applies only to subdirectories met during the
walk, never to the root itself: the root's name `.` would itself fail the
filter (it starts with the hidden marker), yet every `.py` file directly in
the root's listing is returned. -/
theorem claim_C10_rootWalked :
    keepDir "." = false ∧
    (∀ (entries : List FSTree) (n : String),
      FSTree.file n ∈ entries → endsWithPy n = true →
      pathJoin "." n ∈ find_python_files "." entries) := by
  refine ⟨by decide, ?_⟩
  intro entries n hmem hpy
  rw [find_python_files,
    show walkDir "." entries =
      entries.filterMap (pyEntry ".") ++ walkSub "." entries from by
        rw [walkDir]]
  exact List.mem_append_left _
    (List.mem_filterMap.mpr ⟨FSTree.file n, hmem, by rw [pyEntry, if_pos hpy]⟩)

theorem claim_C10_witness :
    keepDir "." = false ∧ endsWithPy "a.py" = true ∧
    pathJoin "." "a.py" ∈ find_python_files "." [FSTree.file "a.py"] :=
  ⟨claim_C10_rootWalked.1, by decide,
    claim_C10_rootWalked.2 [FSTree.file "a.py"] "a.py" (by simp)
      (by decide)⟩

end FixWhitespace
